import Mathlib

/-!
# Verification of the keybindings three-way merge engine

Shallow embedding of `keybindingsMerge.ts` (the three-way reconciliation
engine for keybinding records) together with proofs about the claims of its
specification.

Records are the parsed form of the JSON-with-comments texts.  The external
parser/serializer is out of scope for the engine (it is a black box
`parse : text -> records`, `edit : text -> index -> record? -> text`), so a
text blob is identified with its parse: an ordered list of records.  The
external collaborators (array equality, `firstIndex`, the positional editor
and the context-key expression comparator) are modelled from the spec where
noted.
-/

set_option autoImplicit false

namespace KeybindingsMerge

/-- One keybinding record: raw key string, command (possibly `-`-negated),
optional `when` guard source and optional opaque `args` value (modelled
opaquely; `objects.equals` deep equality becomes equality of the model). -/
structure Keybinding where
  key : String
  command : String
  «when» : Option String
  args : Option String
deriving DecidableEq, Repr

/-- Result of comparing two groupings (`ICompareResult`): the added, removed
and updated grouping keys.  JS `Set<string>` is modelled as an
insertion-ordered duplicate-free list. -/
structure CompareResult where
  added : List String
  removed : List String
  updated : List String
deriving DecidableEq, Repr

/-- Binding-level merge result (`IMergeResult`). -/
structure KbMergeResult where
  hasLocalForwarded : Bool
  hasRemoteForwarded : Bool
  added : List String
  removed : List String
  updated : List String
  conflicts : List String
deriving DecidableEq, Repr

/-- Command-level merge result (result record of `computeMergeResult`). -/
structure CommandsMergeResult where
  added : List String
  removed : List String
  updated : List String
  conflicts : List String
deriving DecidableEq, Repr

/-- The merge output content: either plain record text, or the two-way
conflict block `<<<<<<< local` / `=======` / `>>>>>>> remote` wrapping the
edited local records and the raw remote records. -/
inductive MergeContent where
  | text (records : List Keybinding)
  | conflict (localPart : List Keybinding) (remotePart : List Keybinding)
deriving DecidableEq, Repr

/-- The result record of `merge`. -/
structure MergeOut where
  mergeContent : MergeContent
  hasChanges : Bool
  hasConflicts : Bool
deriving DecidableEq, Repr

/-! ## Maps and sets

JS `Map<string, IUserFriendlyKeybinding[]>` is modelled as an
insertion-ordered association list, JS `Set<string>` as an insertion-ordered
duplicate-free list; `keys`/`values` from `vs/base/common/map` return the
insertion-ordered elements. -/

/-- `map.get(key)` on an association list. -/
def listFind {α : Type} (m : List (String × α)) (key : String) : Option α :=
  match m with
  | [] => none
  | (k, v) :: rest => if k == key then some v else listFind rest key

/-- `keys(map)`: the keys in insertion order. -/
def mapKeys {α : Type} (m : List (String × α)) : List String :=
  m.map (fun e => e.1)

/-- Append one record to the group of `key`, creating the group at the end of
the map when absent (JS `Map` insertion-order semantics). -/
def mapAdd (m : List (String × List Keybinding)) (key : String) (keybinding : Keybinding) :
    List (String × List Keybinding) :=
  match m with
  | [] => [(key, [keybinding])]
  | (k, v) :: rest =>
    if k == key then (k, v ++ [keybinding]) :: rest
    else (k, v) :: mapAdd rest key keybinding

/-- `set.add(key)` on the list model of JS `Set<string>`. -/
def setAdd (s : List String) (key : String) : List String :=
  if s.contains key then s else s ++ [key]

/-- `list.reduce((r, k) => { r.add(k); return r; }, new Set<string>())`. -/
def toSet (l : List String) : List String :=
  l.foldl setAdd []

/-! ## External collaborators, modelled from the spec -/

/-- Modelled from the spec: the external context-key expression comparator
(`ContextKeyExpr` from `vs/platform/contextkey/common/contextkey`, not under
`src/`).  An expression is modelled as its list of conjunct atoms;
`Expr.equals` is semantic: the two conjunct sets must coincide, so
syntactically different but semantically identical guards compare equal. -/
def ctxExprEquals (value1 value2 : List String) : Bool :=
  value1.all (fun c => value2.contains c) && value2.all (fun c => value1.contains c)

/-- Modelled from the spec: `ContextKeyExpr.deserialize`
(`parseExpr(str|undefined) -> Expr|null`, not under `src/`).  An absent or
empty serialization yields no expression; otherwise the conjunct atoms of the
serialized expression. -/
def deserializeWhen : Option String → Option (List String)
  | none => none
  | some s => if s == "" then none else some (s.splitOn " && ")

/-- Modelled from the spec: the external array equality helper `equals` from
`vs/base/common/arrays` (not under `src/`): two lists are equal iff they have
the same length and are pairwise equal in order under the item comparator. -/
def listEquals (value1 value2 : List Keybinding) (eq : Keybinding → Keybinding → Bool) : Bool :=
  value1.length == value2.length && (value1.zip value2).all (fun p => eq p.1 p.2)

/-- Modelled from the spec: the external array helper `firstIndex` from
`vs/base/common/arrays` (not under `src/`): the index of the first element
satisfying the predicate, here as an `Option`. -/
def firstIdx? {α : Type} (p : α → Bool) : List α → Option Nat
  | [] => none
  | x :: xs => if p x then some 0 else (firstIdx? p xs).map (· + 1)

/-- Insert an element at a position of a list (position past the end appends). -/
def insertAt {α : Type} : List α → Nat → α → List α
  | l, 0, a => a :: l
  | [], _ + 1, a => [a]
  | x :: l, n + 1, a => x :: insertAt l n a

/-- Remove the element at a position of a list (no-op past the end). -/
def eraseAt {α : Type} : List α → Nat → List α
  | [], _ => []
  | _ :: l, 0 => l
  | x :: l, n + 1 => x :: eraseAt l n

/-- Modelled from the spec: the external positional editor
`contentUtil.edit(content, eol, [index], keybinding?)` from
`vs/platform/userDataSync/common/content` (not under `src/`), with a text
identified with its parse: index `-1` appends, a present record is inserted
at the index, an absent record (`undefined`) deletes the record at the index.
The `eol` argument only affects textual layout and is dropped. -/
def editContent (content : List Keybinding) (index : Int) (keybinding : Option Keybinding) :
    List Keybinding :=
  match keybinding with
  | some kb => if index < 0 then content ++ [kb] else insertAt content index.toNat kb
  | none => if index < 0 then content else eraseAt content index.toNat

/-! ## Grouping (`byKeybinding`, `byCommand`) -/

/-- `byKeybinding`: group records by canonical key `keys[keybinding.key]`. -/
def byKeybinding (keybindings : List Keybinding) (keysTable : String → String) :
    List (String × List Keybinding) :=
  keybindings.foldl (fun map keybinding => mapAdd map (keysTable keybinding.key) keybinding) []

/-- `keybinding.command[0] === '-'`. -/
def isRemovalCommand (command : String) : Bool :=
  match command.data with
  | [] => false
  | c :: _ => c == '-'

/-- `command.substring(1)`. -/
def stripRemovalDash (command : String) : String :=
  String.mk (command.data.drop 1)

/-- `byCommand`: group records by command name, `-command` grouping with
`command`. -/
def byCommand (keybindings : List Keybinding) : List (String × List Keybinding) :=
  keybindings.foldl
    (fun map keybinding =>
      mapAdd map
        (if isRemovalCommand keybinding.command then stripRemovalDash keybinding.command
         else keybinding.command)
        keybinding)
    []

/-! ## Equality predicates -/

/-- `isSameKeybinding`: structural equality of one record — equal command,
equal raw key string, equivalent `when` guards (both absent, or both present
and equal under the expression comparator) and deeply equal `args`. -/
def isSameKeybinding (a b : Keybinding) : Bool :=
  if a.command ≠ b.command then false
  else if a.key ≠ b.key then false
  else
    let whenA := deserializeWhen a.when
    let whenB := deserializeWhen b.when
    if (whenA.isSome && !whenB.isSome) || (!whenA.isSome && whenB.isSome) then false
    else if whenA.isSome && whenB.isSome && !ctxExprEquals (whenA.getD []) (whenB.getD []) then
      false
    else if a.args ≠ b.args then false
    else true

/-- `areSameKeybindingsWithSameCommand`: compare the entries adding
keybindings and the entries removing keybindings independently. -/
def areSameKeybindingsWithSameCommand (value1 value2 : List Keybinding) : Bool :=
  listEquals (value1.filter (fun e => !isRemovalCommand e.command))
      (value2.filter (fun e => !isRemovalCommand e.command)) isSameKeybinding
    &&
    listEquals (value1.filter (fun e => isRemovalCommand e.command))
      (value2.filter (fun e => isRemovalCommand e.command)) isSameKeybinding

/-! ## Compare -/

/-- `compareByKeybinding`: added/removed by key-set difference; a key present
on both sides is updated when the two record lists, each with the record key
field rewritten to the canonical grouping key, differ under
`isSameKeybinding`. -/
def compareByKeybinding (fromMap toMap : List (String × List Keybinding)) : CompareResult :=
  let fromKeys := mapKeys fromMap
  let toKeys := mapKeys toMap
  let added := toSet (toKeys.filter (fun key => !fromKeys.contains key))
  let removed := toSet (fromKeys.filter (fun key => !toKeys.contains key))
  let updated := fromKeys.foldl
    (fun updated key =>
      if removed.contains key then updated
      else if listEquals
          (((listFind fromMap key).getD []).map (fun keybinding => { keybinding with key := key }))
          (((listFind toMap key).getD []).map (fun keybinding => { keybinding with key := key }))
          isSameKeybinding then updated
      else setAdd updated key)
    []
  { added := added, removed := removed, updated := updated }

/-- `compareByCommand`: added/removed by command-set difference; a command
present on both sides is updated when the two record lists, each with the
record key field rewritten to its canonical key, differ under the
command-aware list equality. -/
def compareByCommand (fromMap toMap : List (String × List Keybinding))
    (normalizedKeys : String → String) : CompareResult :=
  let fromKeys := mapKeys fromMap
  let toKeys := mapKeys toMap
  let added := toSet (toKeys.filter (fun key => !fromKeys.contains key))
  let removed := toSet (fromKeys.filter (fun key => !toKeys.contains key))
  let updated := fromKeys.foldl
    (fun updated key =>
      if removed.contains key then updated
      else if areSameKeybindingsWithSameCommand
          (((listFind fromMap key).getD []).map
            (fun keybinding => { keybinding with key := normalizedKeys keybinding.key }))
          (((listFind toMap key).getD []).map
            (fun keybinding => { keybinding with key := normalizedKeys keybinding.key })) then
        updated
      else setAdd updated key)
    []
  { added := added, removed := removed, updated := updated }

/-- `added.size === 0 && removed.size === 0 && updated.size === 0`. -/
def compareResultIsEmpty (r : CompareResult) : Bool :=
  r.added.isEmpty && r.removed.isEmpty && r.updated.isEmpty

/-! ## Command-level fold (`computeMergeResult`) -/

/-- Loop body "Removed keys in Local": a key removed in local that got
updated in remote is a conflict. -/
def removedLocalStep (baseToRemote : CompareResult) (conflicts : List String) (key : String) :
    List String :=
  if baseToRemote.updated.contains key then setAdd conflicts key else conflicts

/-- Loop body "Removed keys in Remote" over `(removed, conflicts)`: skip keys
already in conflict; a key updated in local conflicts, otherwise it is
removed. -/
def removedRemoteStep (baseToLocal : CompareResult) (acc : List String × List String)
    (key : String) : List String × List String :=
  if acc.2.contains key then acc
  else if baseToLocal.updated.contains key then (acc.1, setAdd acc.2 key)
  else (setAdd acc.1 key, acc.2)

/-- Loop body "Added keys in Local": a key added on both sides with differing
content is a conflict. -/
def addedLocalStep (baseToRemote localToRemote : CompareResult) (conflicts : List String)
    (key : String) : List String :=
  if conflicts.contains key then conflicts
  else if baseToRemote.added.contains key then
    (if localToRemote.updated.contains key then setAdd conflicts key else conflicts)
  else conflicts

/-- Loop body "Added keys in remote" over `(added, conflicts)`. -/
def addedRemoteStep (baseToLocal localToRemote : CompareResult) (acc : List String × List String)
    (key : String) : List String × List String :=
  if acc.2.contains key then acc
  else if baseToLocal.added.contains key then
    (if localToRemote.updated.contains key then (acc.1, setAdd acc.2 key) else acc)
  else (setAdd acc.1 key, acc.2)

/-- Loop body "Updated keys in Local": a key updated on both sides with
differing content is a conflict. -/
def updatedLocalStep (baseToRemote localToRemote : CompareResult) (conflicts : List String)
    (key : String) : List String :=
  if conflicts.contains key then conflicts
  else if baseToRemote.updated.contains key then
    (if localToRemote.updated.contains key then setAdd conflicts key else conflicts)
  else conflicts

/-- Loop body "Updated keys in Remote" over `(updated, conflicts)`. -/
def updatedRemoteStep (baseToLocal localToRemote : CompareResult) (acc : List String × List String)
    (key : String) : List String × List String :=
  if acc.2.contains key then acc
  else if baseToLocal.updated.contains key then
    (if localToRemote.updated.contains key then (acc.1, setAdd acc.2 key) else acc)
  else (setAdd acc.1 key, acc.2)

/-- `computeMergeResult`: fold the three pairwise compare results into the
added/removed/updated/conflicts command sets, in the fixed rule order of the
source (removed-local, removed-remote, added-local, added-remote,
updated-local, updated-remote), threading the conflict set through. -/
def computeMergeResult (localToRemote baseToLocal baseToRemote : CompareResult) :
    CommandsMergeResult :=
  let conflicts1 := baseToLocal.removed.foldl (removedLocalStep baseToRemote) []
  let rc := baseToRemote.removed.foldl (removedRemoteStep baseToLocal) ([], conflicts1)
  let conflicts2 := baseToLocal.added.foldl (addedLocalStep baseToRemote localToRemote) rc.2
  let ac := baseToRemote.added.foldl (addedRemoteStep baseToLocal localToRemote) ([], conflicts2)
  let conflicts3 := baseToLocal.updated.foldl (updatedLocalStep baseToRemote localToRemote) ac.2
  let uc := baseToRemote.updated.foldl (updatedRemoteStep baseToLocal localToRemote)
    ([], conflicts3)
  { added := ac.1, removed := rc.1, updated := uc.1, conflicts := uc.2 }

/-! ## Binding-level merge result (`computeMergeResultByKeybinding`) -/

/-- The base-to-side binding-level comparison, defaulting to "everything in
that side is newly added" when no base snapshot exists. -/
def baseToSideByKeybinding (base : Option (List Keybinding)) (side : List Keybinding)
    (normalizedKeys : String → String) : CompareResult :=
  match base with
  | some b => compareByKeybinding (byKeybinding b normalizedKeys) (byKeybinding side normalizedKeys)
  | none =>
    { added := toSet (mapKeys (byKeybinding side normalizedKeys)), removed := [], updated := [] }

/-- `computeMergeResultByKeybinding`: the binding-level gate.  Local/remote
identical: nothing forwarded.  Base-to-local empty: only remote forwarded.
Base-to-remote empty: only local forwarded.  Otherwise both forwarded and the
command-fold runs on the binding-level compare results. -/
def computeMergeResultByKeybinding (localList remoteList : List Keybinding)
    (base : Option (List Keybinding)) (normalizedKeys : String → String) : KbMergeResult :=
  let localToRemoteByKeybinding :=
    compareByKeybinding (byKeybinding localList normalizedKeys)
      (byKeybinding remoteList normalizedKeys)
  if compareResultIsEmpty localToRemoteByKeybinding then
    { hasLocalForwarded := false, hasRemoteForwarded := false,
      added := [], removed := [], updated := [], conflicts := [] }
  else
    let baseToLocalByKeybinding := baseToSideByKeybinding base localList normalizedKeys
    if compareResultIsEmpty baseToLocalByKeybinding then
      { hasLocalForwarded := false, hasRemoteForwarded := true,
        added := [], removed := [], updated := [], conflicts := [] }
    else
      let baseToRemoteByKeybinding := baseToSideByKeybinding base remoteList normalizedKeys
      if compareResultIsEmpty baseToRemoteByKeybinding then
        { hasLocalForwarded := true, hasRemoteForwarded := false,
          added := [], removed := [], updated := [], conflicts := [] }
      else
        let r := computeMergeResult localToRemoteByKeybinding baseToLocalByKeybinding
          baseToRemoteByKeybinding
        { hasLocalForwarded := true, hasRemoteForwarded := true,
          added := r.added, removed := r.removed, updated := r.updated, conflicts := r.conflicts }

/-! ## Content rewriter -/

/-- `keybinding.command === command || keybinding.command === "-" + command`. -/
def keybindingMatches (command : String) (keybinding : Keybinding) : Bool :=
  keybinding.command == command || keybinding.command == "-" ++ command

/-- `addKeybindings`: append each record at the end (`edit` at index `-1`). -/
def addKeybindings (content : List Keybinding) (keybindings : List Keybinding) :
    List Keybinding :=
  keybindings.foldl (fun c keybinding => editContent c (-1) (some keybinding)) content

/-- `removeKeybindings`: parse the content and delete, scanning indices in
reverse order, every record whose command is the command or its negated form
(the descending index loop is the `foldr` over the ascending index range). -/
def removeKeybindings (content : List Keybinding) (command : String) : List Keybinding :=
  let keybindings := content
  (List.range keybindings.length).foldr
    (fun (index : Nat) c =>
      if (keybindings[index]?.any (keybindingMatches command)) then
        editContent c (Int.ofNat index) none
      else c)
    content

/-- `updateKeybindings`: remember where the first record of the command is
located, delete (in reverse index order) every record of the command or its
negated form, then insert the given records at that location, last first
(the descending index loops are `foldr`s). -/
def updateKeybindings (content : List Keybinding) (command : String)
    (keybindings : List Keybinding) : List Keybinding :=
  let allKeybindings := content
  let location : Int :=
    match firstIdx? (keybindingMatches command) allKeybindings with
    | some i => Int.ofNat i
    | none => -1
  let content1 := (List.range allKeybindings.length).foldr
    (fun (index : Nat) c =>
      if (allKeybindings[index]?.any (keybindingMatches command)) then
        editContent c (Int.ofNat index) none
      else c)
    content
  keybindings.foldr (fun keybinding c => editContent c location (some keybinding)) content1

/-! ## Output assembly (`merge`, lines 52–108) -/

/-- The Level-2 guard of the added/updated loops: some remote record of the
command that is not the negated form `-command` uses a canonical key that is
in the binding-level conflict set. -/
def escalationGuard (bindingConflicts : List String) (normalizedKeys : String → String)
    (command : String) (keybindings : List Keybinding) : Bool :=
  keybindings.any fun keybinding =>
    keybinding.command != "-" ++ command && bindingConflicts.contains (normalizedKeys keybinding.key)

/-- One step of the "Added commands in remote" loop over
`(content, conflicts)`: skip conflicting commands, escalate on the guard,
otherwise append the remote records. -/
def addedCommandStep (remoteByCommand : List (String × List Keybinding))
    (bindingConflicts : List String) (normalizedKeys : String → String)
    (acc : List Keybinding × List String) (command : String) :
    List Keybinding × List String :=
  if acc.2.contains command then acc
  else
    let keybindings := (listFind remoteByCommand command).getD []
    if escalationGuard bindingConflicts normalizedKeys command keybindings then
      (acc.1, setAdd acc.2 command)
    else (addKeybindings acc.1 keybindings, acc.2)

/-- One step of the "Updated commands in Remote" loop over
`(content, conflicts)`: skip conflicting commands, escalate on the guard,
otherwise replace the command's records by the remote ones in place. -/
def updatedCommandStep (remoteByCommand : List (String × List Keybinding))
    (bindingConflicts : List String) (normalizedKeys : String → String)
    (acc : List Keybinding × List String) (command : String) :
    List Keybinding × List String :=
  if acc.2.contains command then acc
  else
    let keybindings := (listFind remoteByCommand command).getD []
    if escalationGuard bindingConflicts normalizedKeys command keybindings then
      (acc.1, setAdd acc.2 command)
    else (updateKeybindings acc.1 command keybindings, acc.2)

/-- The command-level three-way compare and fold of `merge` (lines 52–59). -/
def commandLevelMerge (localList remoteList : List Keybinding)
    (base : Option (List Keybinding)) (normalizedKeys : String → String) : CommandsMergeResult :=
  let localByCommand := byCommand localList
  let remoteByCommand := byCommand remoteList
  let localToRemoteByCommand := compareByCommand localByCommand remoteByCommand normalizedKeys
  let baseToLocalByCommand :=
    match base.map byCommand with
    | some b => compareByCommand b localByCommand normalizedKeys
    | none => { added := toSet (mapKeys localByCommand), removed := [], updated := [] }
  let baseToRemoteByCommand :=
    match base.map byCommand with
    | some b => compareByCommand b remoteByCommand normalizedKeys
    | none => { added := toSet (mapKeys remoteByCommand), removed := [], updated := [] }
  computeMergeResult localToRemoteByCommand baseToLocalByCommand baseToRemoteByCommand

/-- The output assembly of `merge` (lines 60–97): apply the removed, added
and updated commands to the local content, threading the command conflict set
(which the Level-2 guard may still extend); returns the edited content and
the final conflict set. -/
def outputAssembly (localList remoteList : List Keybinding) (base : Option (List Keybinding))
    (normalizedKeys : String → String) : List Keybinding × List String :=
  let keybindingsMergeResult := computeMergeResultByKeybinding localList remoteList base
    normalizedKeys
  let remoteByCommand := byCommand remoteList
  let commandsMergeResult := commandLevelMerge localList remoteList base normalizedKeys
  let content1 := commandsMergeResult.removed.foldl
    (fun mergeContent command =>
      if commandsMergeResult.conflicts.contains command then mergeContent
      else removeKeybindings mergeContent command)
    localList
  let acc1 := commandsMergeResult.added.foldl
    (addedCommandStep remoteByCommand keybindingsMergeResult.conflicts normalizedKeys)
    (content1, commandsMergeResult.conflicts)
  commandsMergeResult.updated.foldl
    (updatedCommandStep remoteByCommand keybindingsMergeResult.conflicts normalizedKeys)
    acc1

/-- `merge`: the binding-level gate decides the three fast paths (no change,
take remote verbatim, take local verbatim); otherwise both sides diverged,
the command-level merge and output assembly run, and a non-empty conflict set
wraps the result in the conflict block. -/
def merge (localContent remoteContent : List Keybinding) (baseContent : Option (List Keybinding))
    (normalizedKeys : String → String) : MergeOut :=
  let keybindingsMergeResult := computeMergeResultByKeybinding localContent remoteContent
    baseContent normalizedKeys
  if !keybindingsMergeResult.hasLocalForwarded && !keybindingsMergeResult.hasRemoteForwarded then
    { mergeContent := MergeContent.text localContent, hasChanges := false, hasConflicts := false }
  else if !keybindingsMergeResult.hasLocalForwarded
      && keybindingsMergeResult.hasRemoteForwarded then
    { mergeContent := MergeContent.text remoteContent, hasChanges := true, hasConflicts := false }
  else if keybindingsMergeResult.hasLocalForwarded
      && !keybindingsMergeResult.hasRemoteForwarded then
    { mergeContent := MergeContent.text localContent, hasChanges := true, hasConflicts := false }
  else
    let assembled := outputAssembly localContent remoteContent baseContent normalizedKeys
    let hasConflicts := !assembled.2.isEmpty
    { mergeContent :=
        if hasConflicts then MergeContent.conflict assembled.1 remoteContent
        else MergeContent.text assembled.1,
      hasChanges := true, hasConflicts := hasConflicts }


/-! ## Basic lemmas about the set and map models -/

theorem mem_setAdd_iff {s : List String} {x key : String} :
    x ∈ setAdd s key ↔ x ∈ s ∨ x = key := by
  unfold setAdd
  by_cases h : key ∈ s
  · rw [if_pos (by simpa using h)]
    constructor
    · exact Or.inl
    · rintro (hx | rfl)
      · exact hx
      · exact h
  · rw [if_neg (by simpa using h)]
    simp [List.mem_append]

theorem mem_setAdd_self {s : List String} {key : String} : key ∈ setAdd s key :=
  mem_setAdd_iff.mpr (Or.inr rfl)

theorem mem_setAdd_of_mem {s : List String} {x : String} (key : String) (h : x ∈ s) :
    x ∈ setAdd s key :=
  mem_setAdd_iff.mpr (Or.inl h)

theorem not_mem_setAdd {s : List String} {x key : String} (hx : x ∉ s) (hne : x ≠ key) :
    x ∉ setAdd s key := by
  intro h
  rcases mem_setAdd_iff.mp h with h' | h'
  · exact hx h'
  · exact hne h'

theorem mem_foldl_setAdd {l init : List String} {x : String} :
    x ∈ l.foldl setAdd init ↔ x ∈ init ∨ x ∈ l := by
  induction l generalizing init with
  | nil => simp
  | cons k rest ih =>
    simp only [List.foldl_cons, ih, mem_setAdd_iff, List.mem_cons]
    tauto

theorem mem_toSet {l : List String} {x : String} : x ∈ toSet l ↔ x ∈ l := by
  unfold toSet
  simp [mem_foldl_setAdd]

theorem listFind_isSome_iff {α : Type} (m : List (String × α)) (key : String) :
    (listFind m key).isSome = true ↔ key ∈ mapKeys m := by
  induction m with
  | nil => simp [listFind, mapKeys]
  | cons e rest ih =>
    obtain ⟨k, v⟩ := e
    simp only [mapKeys, List.map_cons, List.mem_cons] at ih ⊢
    by_cases h : k = key
    · subst h
      simp [listFind]
    · have hb : (k == key) = false := by simpa using h
      unfold listFind
      rw [hb]
      simp only [Bool.false_eq_true, if_false]
      constructor
      · intro hh
        exact Or.inr (ih.mp hh)
      · rintro (rfl | hh)
        · exact absurd rfl h
        · exact ih.mpr hh

/-! ## Generic fold lemmas -/

/-- An invariant preserved by every step of a fold is preserved by the fold. -/
theorem foldl_preserve {α : Type} (step : α → String → α) (P : α → Prop)
    (hstep : ∀ a key, P a → P (step a key)) :
    ∀ (l : List String) (a : α), P a → P (l.foldl step a)
  | [], _, h => h
  | key :: rest, a, h => foldl_preserve step P hstep rest (step a key) (hstep a key h)

/-- If some invariant `Q` holds at the start and is preserved by every step,
the step at an element `k` of the list establishes `P` out of `Q`, and `P` is
preserved by every step, then `P` holds after the fold. -/
theorem foldl_once {α : Type} (step : α → String → α) (P Q : α → Prop) (k : String)
    (hQ : ∀ a key, Q a → Q (step a key))
    (hest : ∀ a, Q a → P (step a k))
    (hP : ∀ a key, P a → P (step a key)) :
    ∀ (l : List String) (a : α), k ∈ l → Q a → P (l.foldl step a) := by
  intro l
  induction l with
  | nil => intro a h; simp at h
  | cons key rest ih =>
    intro a hk hq
    by_cases hkey : key = k
    · subst hkey
      exact foldl_preserve step P hP rest (step a key) (hest a hq)
    · have hk' : k ∈ rest := by
        rcases List.mem_cons.mp hk with h | h
        · exact absurd h.symm hkey
        · exact h
      exact ih (step a key) hk' (hQ a key hq)

/-- Membership in a fold that skips keys satisfying `skip`, keeps the
accumulator on `keep` and otherwise adds the key. -/
theorem mem_foldl_skip_keep (skip keep : String → Bool) :
    ∀ (l acc : List String) (x : String),
      x ∈ l.foldl
        (fun a key => if skip key then a else if keep key then a else setAdd a key) acc
        ↔ x ∈ acc ∨ (x ∈ l ∧ skip x = false ∧ keep x = false) := by
  intro l
  induction l with
  | nil => simp
  | cons key rest ih =>
    intro acc x
    simp only [List.foldl_cons, ih, List.mem_cons]
    by_cases hs : skip key
    · simp only [if_pos hs]
      constructor
      · rintro (h | h)
        · exact Or.inl h
        · exact Or.inr ⟨Or.inr h.1, h.2⟩
      · rintro (h | ⟨(rfl | hm), hsk, hkp⟩)
        · exact Or.inl h
        · rw [hs] at hsk; cases hsk
        · exact Or.inr ⟨hm, hsk, hkp⟩
    · by_cases hk : keep key
      · simp only [if_neg hs, if_pos hk]
        constructor
        · rintro (h | h)
          · exact Or.inl h
          · exact Or.inr ⟨Or.inr h.1, h.2⟩
        · rintro (h | ⟨(rfl | hm), hsk, hkp⟩)
          · exact Or.inl h
          · rw [hk] at hkp; cases hkp
          · exact Or.inr ⟨hm, hsk, hkp⟩
      · simp only [if_neg hs, if_neg hk]
        constructor
        · rintro (h | h)
          · rcases mem_setAdd_iff.mp h with h' | rfl
            · exact Or.inl h'
            · exact Or.inr ⟨Or.inl rfl, Bool.eq_false_iff.mpr hs, Bool.eq_false_iff.mpr hk⟩
          · exact Or.inr ⟨Or.inr h.1, h.2⟩
        · rintro (h | ⟨(rfl | hm), hsk, hkp⟩)
          · exact Or.inl (mem_setAdd_of_mem key h)
          · exact Or.inl mem_setAdd_self
          · exact Or.inr ⟨hm, hsk, hkp⟩

/-! ## List equality lemmas -/

theorem listEquals_iff_forall2 (eq : Keybinding → Keybinding → Bool)
    (xs ys : List Keybinding) :
    listEquals xs ys eq = true ↔ List.Forall₂ (fun a b => eq a b = true) xs ys := by
  induction xs generalizing ys with
  | nil => cases ys <;> simp [listEquals]
  | cons x xs ih =>
    cases ys with
    | nil => simp [listEquals]
    | cons y ys =>
      have h := ih ys
      simp only [listEquals, List.length_cons, List.zip_cons_cons, List.all_cons,
        Bool.and_eq_true, beq_iff_eq, add_left_inj] at h ⊢
      rw [List.forall₂_cons]
      tauto

theorem listEquals_refl (eq : Keybinding → Keybinding → Bool) (h : ∀ a, eq a a = true)
    (xs : List Keybinding) : listEquals xs xs eq = true := by
  rw [listEquals_iff_forall2]
  induction xs with
  | nil => exact List.Forall₂.nil
  | cons x xs ih => exact List.Forall₂.cons (h x) ih

theorem ctxExprEquals_refl (x : List String) : ctxExprEquals x x = true := by
  unfold ctxExprEquals
  simp only [Bool.and_self, List.all_eq_true]
  intro c hc
  simpa using hc

theorem isSameKeybinding_refl (a : Keybinding) : isSameKeybinding a a = true := by
  unfold isSameKeybinding
  cases h : deserializeWhen a.when <;> simp [h, ctxExprEquals_refl]


/-! ## Claim C8: single-record equality -/

/-- Spec-side notion for C8: two optional guard expressions are equivalent
when both are absent, or both are present and equal under the expression
comparator. -/
def whenEquivalent (whenA whenB : Option (List String)) : Bool :=
  match whenA, whenB with
  | none, none => true
  | some a, some b => ctxExprEquals a b
  | _, _ => false

/-- C8: `isSameKeybinding` returns true for two records exactly when their
command strings are equal, their key strings are equal, their args are deeply
equal, and their `when` guards are equivalent — both absent, or both present
and semantically equal under the expression comparator; a guard present on
one record and absent on the other makes the records unequal. -/
theorem isSameKeybinding_iff (a b : Keybinding) :
    isSameKeybinding a b = true ↔
      a.command = b.command ∧ a.key = b.key ∧ a.args = b.args ∧
        whenEquivalent (deserializeWhen a.when) (deserializeWhen b.when) = true := by
  unfold isSameKeybinding whenEquivalent
  by_cases hc : a.command = b.command
  case neg => simp [hc]
  by_cases hk : a.key = b.key
  case neg => simp [hc, hk]
  cases hwa : deserializeWhen a.when with
  | none =>
    cases hwb : deserializeWhen b.when with
    | none => by_cases ha : a.args = b.args <;> simp [hc, hk, ha]
    | some wb => simp [hc, hk]
  | some wa =>
    cases hwb : deserializeWhen b.when with
    | none => simp [hc, hk]
    | some wb =>
      by_cases hctx : ctxExprEquals wa wb <;> by_cases ha : a.args = b.args <;>
        simp [hc, hk, hctx, ha]

/-! ## Claim C9: command-aware list equality -/

/-- C9: command-aware list equality holds between two record lists exactly
when the subsequence of entries whose command does not start with `-` is
order-sensitively pairwise equal between the two lists and, independently,
the subsequence of entries whose command starts with `-` is order-sensitively
pairwise equal; the interleaving of positive and negative entries does not
enter the characterization. -/
theorem areSameKeybindingsWithSameCommand_iff (value1 value2 : List Keybinding) :
    areSameKeybindingsWithSameCommand value1 value2 = true ↔
      (List.Forall₂ (fun a b => isSameKeybinding a b = true)
          (value1.filter (fun e => !isRemovalCommand e.command))
          (value2.filter (fun e => !isRemovalCommand e.command)) ∧
        List.Forall₂ (fun a b => isSameKeybinding a b = true)
          (value1.filter (fun e => isRemovalCommand e.command))
          (value2.filter (fun e => isRemovalCommand e.command))) := by
  unfold areSameKeybindingsWithSameCommand
  rw [Bool.and_eq_true, listEquals_iff_forall2, listEquals_iff_forall2]

/-! ## Claim C7: the updated set of compare -/

theorem mem_removedSet {fromKeys toKeys : List String} {x : String} :
    x ∈ toSet (fromKeys.filter (fun key => !toKeys.contains key)) ↔
      x ∈ fromKeys ∧ x ∉ toKeys := by
  simp [mem_toSet, List.mem_filter]

theorem compareByKeybinding_updated_mem (fromMap toMap : List (String × List Keybinding))
    (key : String) :
    key ∈ (compareByKeybinding fromMap toMap).updated ↔
      key ∈ mapKeys fromMap ∧ key ∈ mapKeys toMap ∧
        listEquals
          (((listFind fromMap key).getD []).map (fun keybinding => { keybinding with key := key }))
          (((listFind toMap key).getD []).map (fun keybinding => { keybinding with key := key }))
          isSameKeybinding = false := by
  simp only [compareByKeybinding]
  rw [mem_foldl_skip_keep]
  constructor
  · rintro (h | ⟨hf, hs, hk⟩)
    · simp at h
    · have hs' : key ∉ toSet ((mapKeys fromMap).filter
          (fun k => !(mapKeys toMap).contains k)) := by
        simpa using hs
      refine ⟨hf, ?_, hk⟩
      by_contra ht
      exact hs' (mem_removedSet.mpr ⟨hf, ht⟩)
  · rintro ⟨hf, ht, hne⟩
    refine Or.inr ⟨hf, ?_, hne⟩
    have : key ∉ toSet ((mapKeys fromMap).filter (fun k => !(mapKeys toMap).contains k)) := by
      intro h
      exact (mem_removedSet.mp h).2 ht
    simpa using this

theorem compareByCommand_updated_mem (fromMap toMap : List (String × List Keybinding))
    (normalizedKeys : String → String) (key : String) :
    key ∈ (compareByCommand fromMap toMap normalizedKeys).updated ↔
      key ∈ mapKeys fromMap ∧ key ∈ mapKeys toMap ∧
        areSameKeybindingsWithSameCommand
          (((listFind fromMap key).getD []).map
            (fun keybinding => { keybinding with key := normalizedKeys keybinding.key }))
          (((listFind toMap key).getD []).map
            (fun keybinding => { keybinding with key := normalizedKeys keybinding.key }))
          = false := by
  simp only [compareByCommand]
  rw [mem_foldl_skip_keep]
  constructor
  · rintro (h | ⟨hf, hs, hk⟩)
    · simp at h
    · have hs' : key ∉ toSet ((mapKeys fromMap).filter
          (fun k => !(mapKeys toMap).contains k)) := by
        simpa using hs
      refine ⟨hf, ?_, hk⟩
      by_contra ht
      exact hs' (mem_removedSet.mpr ⟨hf, ht⟩)
  · rintro ⟨hf, ht, hne⟩
    refine Or.inr ⟨hf, ?_, hne⟩
    have : key ∉ toSet ((mapKeys fromMap).filter (fun k => !(mapKeys toMap).contains k)) := by
      intro h
      exact (mem_removedSet.mp h).2 ht
    simpa using this

/-- C7: `compare` places a grouping key in the updated set exactly when the
key is present in both the from and to groupings and the two associated
record lists are not equal under the equality predicate after each record's
key field has been rewritten (to the canonical grouping key at binding level,
to the canonical key of the raw key at command level); raw-key spelling alone
never marks a group updated. -/
theorem compare_updated_iff (fromMap toMap : List (String × List Keybinding))
    (normalizedKeys : String → String) (key : String) :
    (key ∈ (compareByKeybinding fromMap toMap).updated ↔
      ∃ v1 v2, listFind fromMap key = some v1 ∧ listFind toMap key = some v2 ∧
        listEquals (v1.map (fun keybinding => { keybinding with key := key }))
          (v2.map (fun keybinding => { keybinding with key := key }))
          isSameKeybinding = false) ∧
    (key ∈ (compareByCommand fromMap toMap normalizedKeys).updated ↔
      ∃ v1 v2, listFind fromMap key = some v1 ∧ listFind toMap key = some v2 ∧
        areSameKeybindingsWithSameCommand
          (v1.map (fun keybinding => { keybinding with key := normalizedKeys keybinding.key }))
          (v2.map (fun keybinding => { keybinding with key := normalizedKeys keybinding.key }))
          = false) := by
  constructor
  · rw [compareByKeybinding_updated_mem]
    constructor
    · rintro ⟨hf, ht, hne⟩
      obtain ⟨v1, hv1⟩ := Option.isSome_iff_exists.mp ((listFind_isSome_iff fromMap key).mpr hf)
      obtain ⟨v2, hv2⟩ := Option.isSome_iff_exists.mp ((listFind_isSome_iff toMap key).mpr ht)
      refine ⟨v1, v2, hv1, hv2, ?_⟩
      simpa [hv1, hv2] using hne
    · rintro ⟨v1, v2, hv1, hv2, hne⟩
      refine ⟨(listFind_isSome_iff fromMap key).mp (by simp [hv1]),
        (listFind_isSome_iff toMap key).mp (by simp [hv2]), ?_⟩
      simpa [hv1, hv2] using hne
  · rw [compareByCommand_updated_mem]
    constructor
    · rintro ⟨hf, ht, hne⟩
      obtain ⟨v1, hv1⟩ := Option.isSome_iff_exists.mp ((listFind_isSome_iff fromMap key).mpr hf)
      obtain ⟨v2, hv2⟩ := Option.isSome_iff_exists.mp ((listFind_isSome_iff toMap key).mpr ht)
      refine ⟨v1, v2, hv1, hv2, ?_⟩
      simpa [hv1, hv2] using hne
    · rintro ⟨v1, v2, hv1, hv2, hne⟩
      refine ⟨(listFind_isSome_iff fromMap key).mp (by simp [hv1]),
        (listFind_isSome_iff toMap key).mp (by simp [hv2]), ?_⟩
      simpa [hv1, hv2] using hne


/-! ## Claim C1: merging identical inputs is a no-op -/

theorem compareByKeybinding_self_isEmpty (m : List (String × List Keybinding)) :
    compareResultIsEmpty (compareByKeybinding m m) = true := by
  have hfilter : (mapKeys m).filter (fun key => !(mapKeys m).contains key) = [] :=
    List.filter_eq_nil_iff.mpr (by intro a ha; simp [ha])
  have hadded : (compareByKeybinding m m).added = [] := by
    simp only [compareByKeybinding]
    rw [hfilter]
    rfl
  have hremoved : (compareByKeybinding m m).removed = [] := by
    simp only [compareByKeybinding]
    rw [hfilter]
    rfl
  have hupd : (compareByKeybinding m m).updated = [] := by
    rw [List.eq_nil_iff_forall_not_mem]
    intro key h
    obtain ⟨-, -, hne⟩ := (compareByKeybinding_updated_mem m m key).mp h
    rw [listEquals_refl isSameKeybinding isSameKeybinding_refl] at hne
    cases hne
  simp [compareResultIsEmpty, hadded, hremoved, hupd]

/-- C1: for every record list `X` and every normalization table `N`,
`merge X X X N` returns the local records unchanged, no changes and no
conflicts. -/
theorem merge_idempotent_on_agreement (X : List Keybinding) (N : String → String) :
    merge X X (some X) N =
      { mergeContent := MergeContent.text X, hasChanges := false, hasConflicts := false } := by
  have h := compareByKeybinding_self_isEmpty (byKeybinding X N)
  simp [merge, computeMergeResultByKeybinding, h]

/-! ## Claim C2: one-sided forwarding fast paths -/

/-- C2: given that local and remote differ under binding-level comparison: if
the base-to-local comparison by canonical key is empty while base-to-remote
is not, `merge` returns the remote records verbatim with `hasChanges` and no
conflicts; symmetrically, if only base-to-local is non-empty (base-to-remote
empty), `merge` returns the local records verbatim with `hasChanges` and no
conflicts. -/
theorem merge_single_side_forwarded (localContent remoteContent : List Keybinding)
    (baseContent : Option (List Keybinding)) (normalizedKeys : String → String)
    (hdiff : compareResultIsEmpty
      (compareByKeybinding (byKeybinding localContent normalizedKeys)
        (byKeybinding remoteContent normalizedKeys)) = false) :
    (compareResultIsEmpty (baseToSideByKeybinding baseContent localContent normalizedKeys)
        = true →
      compareResultIsEmpty (baseToSideByKeybinding baseContent remoteContent normalizedKeys)
        = false →
      merge localContent remoteContent baseContent normalizedKeys =
        { mergeContent := MergeContent.text remoteContent, hasChanges := true,
          hasConflicts := false }) ∧
    (compareResultIsEmpty (baseToSideByKeybinding baseContent localContent normalizedKeys)
        = false →
      compareResultIsEmpty (baseToSideByKeybinding baseContent remoteContent normalizedKeys)
        = true →
      merge localContent remoteContent baseContent normalizedKeys =
        { mergeContent := MergeContent.text localContent, hasChanges := true,
          hasConflicts := false }) := by
  constructor
  · intro hbl hbr
    simp [merge, computeMergeResultByKeybinding, hdiff, hbl]
  · intro hbl hbr
    simp [merge, computeMergeResultByKeybinding, hdiff, hbl, hbr]

theorem merge_single_side_forwarded_witness :
    merge [] [⟨"k1", "B", none, none⟩] (some []) (fun k => k) =
      { mergeContent := MergeContent.text [⟨"k1", "B", none, none⟩], hasChanges := true,
        hasConflicts := false } ∧
    merge [⟨"k1", "B", none, none⟩] [] (some []) (fun k => k) =
      { mergeContent := MergeContent.text [⟨"k1", "B", none, none⟩], hasChanges := true,
        hasConflicts := false } := by
  constructor
  · exact (merge_single_side_forwarded [] [⟨"k1", "B", none, none⟩] (some []) (fun k => k)
      (by decide)).1 (by decide) (by decide)
  · exact (merge_single_side_forwarded [⟨"k1", "B", none, none⟩] [] (some []) (fun k => k)
      (by decide)).2 (by decide) (by decide)

/-! ## Claim C10: the escalation guard ignores negated records -/

/-- C10: the Level-2 escalation guard tests only remote records whose command
field is not the negated form `-command`; a command all of whose remote
records are negations is never escalated by the guard, regardless of which
canonical keys those negated records use and of the binding-level conflict
set. -/
theorem escalationGuard_ignores_negated (bindingConflicts : List String)
    (normalizedKeys : String → String) (command : String) (keybindings : List Keybinding) :
    (escalationGuard bindingConflicts normalizedKeys command keybindings = true ↔
      ∃ keybinding ∈ keybindings, keybinding.command ≠ "-" ++ command ∧
        bindingConflicts.contains (normalizedKeys keybinding.key) = true) ∧
    ((∀ keybinding ∈ keybindings, keybinding.command = "-" ++ command) →
      escalationGuard bindingConflicts normalizedKeys command keybindings = false) := by
  have hiff : escalationGuard bindingConflicts normalizedKeys command keybindings = true ↔
      ∃ keybinding ∈ keybindings, keybinding.command ≠ "-" ++ command ∧
        bindingConflicts.contains (normalizedKeys keybinding.key) = true := by
    unfold escalationGuard
    rw [List.any_eq_true]
    constructor
    · rintro ⟨kb, hkb, h⟩
      rw [Bool.and_eq_true] at h
      exact ⟨kb, hkb, by simpa [bne_iff_ne] using h.1, h.2⟩
    · rintro ⟨kb, hkb, hne, hc⟩
      refine ⟨kb, hkb, ?_⟩
      rw [Bool.and_eq_true, hc]
      exact ⟨by simpa [bne_iff_ne] using hne, rfl⟩
  refine ⟨hiff, ?_⟩
  intro hall
  cases hg : escalationGuard bindingConflicts normalizedKeys command keybindings
  · rfl
  · obtain ⟨kb, hkb, hne, -⟩ := hiff.mp hg
    exact absurd (hall kb hkb) hne

theorem escalationGuard_ignores_negated_witness :
    (∀ keybinding ∈ [(⟨"k1", "-A", none, none⟩ : Keybinding)],
      keybinding.command = "-" ++ "A") ∧
    escalationGuard ["k1"] (fun k => k) "A" [⟨"k1", "-A", none, none⟩] = false :=
  ⟨by decide,
    (escalationGuard_ignores_negated ["k1"] (fun k => k) "A" [⟨"k1", "-A", none, none⟩]).2
      (by decide)⟩


/-! ## Claim C3: a removal racing an update is a conflict -/

theorem removedLocalStep_mono (baseToRemote : CompareResult) {key : String}
    (c : List String) (k : String) (h : key ∈ c) : key ∈ removedLocalStep baseToRemote c k := by
  unfold removedLocalStep
  split
  · exact mem_setAdd_of_mem k h
  · exact h

theorem addedLocalStep_mono (baseToRemote localToRemote : CompareResult) {key : String}
    (c : List String) (k : String) (h : key ∈ c) :
    key ∈ addedLocalStep baseToRemote localToRemote c k := by
  unfold addedLocalStep
  split
  · exact h
  · split
    · split
      · exact mem_setAdd_of_mem k h
      · exact h
    · exact h

theorem updatedLocalStep_mono (baseToRemote localToRemote : CompareResult) {key : String}
    (c : List String) (k : String) (h : key ∈ c) :
    key ∈ updatedLocalStep baseToRemote localToRemote c k := by
  unfold updatedLocalStep
  split
  · exact h
  · split
    · split
      · exact mem_setAdd_of_mem k h
      · exact h
    · exact h

theorem removedRemoteStep_preserve (baseToLocal : CompareResult) {key : String}
    (acc : List String × List String) (k : String) (h : key ∈ acc.2 ∧ key ∉ acc.1) :
    key ∈ (removedRemoteStep baseToLocal acc k).2 ∧
      key ∉ (removedRemoteStep baseToLocal acc k).1 := by
  unfold removedRemoteStep
  by_cases hc : acc.2.contains k = true
  · rw [if_pos hc]; exact h
  · rw [if_neg hc]
    have hkne : key ≠ k := by
      intro he; subst he; exact hc (by simpa using h.1)
    by_cases hu : baseToLocal.updated.contains k = true
    · rw [if_pos hu]
      exact ⟨mem_setAdd_of_mem k h.1, h.2⟩
    · rw [if_neg hu]
      exact ⟨h.1, not_mem_setAdd h.2 hkne⟩

theorem addedRemoteStep_preserve (baseToLocal localToRemote : CompareResult) {key : String}
    (acc : List String × List String) (k : String) (h : key ∈ acc.2 ∧ key ∉ acc.1) :
    key ∈ (addedRemoteStep baseToLocal localToRemote acc k).2 ∧
      key ∉ (addedRemoteStep baseToLocal localToRemote acc k).1 := by
  unfold addedRemoteStep
  by_cases hc : acc.2.contains k = true
  · rw [if_pos hc]; exact h
  · rw [if_neg hc]
    have hkne : key ≠ k := by
      intro he; subst he; exact hc (by simpa using h.1)
    by_cases ha : baseToLocal.added.contains k = true
    · rw [if_pos ha]
      by_cases hu : localToRemote.updated.contains k = true
      · rw [if_pos hu]; exact ⟨mem_setAdd_of_mem k h.1, h.2⟩
      · rw [if_neg hu]; exact h
    · rw [if_neg ha]
      exact ⟨h.1, not_mem_setAdd h.2 hkne⟩

theorem updatedRemoteStep_preserve (baseToLocal localToRemote : CompareResult) {key : String}
    (acc : List String × List String) (k : String) (h : key ∈ acc.2 ∧ key ∉ acc.1) :
    key ∈ (updatedRemoteStep baseToLocal localToRemote acc k).2 ∧
      key ∉ (updatedRemoteStep baseToLocal localToRemote acc k).1 := by
  unfold updatedRemoteStep
  by_cases hc : acc.2.contains k = true
  · rw [if_pos hc]; exact h
  · rw [if_neg hc]
    have hkne : key ≠ k := by
      intro he; subst he; exact hc (by simpa using h.1)
    by_cases ha : baseToLocal.updated.contains k = true
    · rw [if_pos ha]
      by_cases hu : localToRemote.updated.contains k = true
      · rw [if_pos hu]; exact ⟨mem_setAdd_of_mem k h.1, h.2⟩
      · rw [if_neg hu]; exact h
    · rw [if_neg ha]
      exact ⟨h.1, not_mem_setAdd h.2 hkne⟩

theorem conflicts1_mem (baseToRemote : CompareResult) (l : List String) {key : String}
    (hkl : key ∈ l) (hupd : key ∈ baseToRemote.updated) :
    key ∈ l.foldl (removedLocalStep baseToRemote) [] := by
  refine foldl_once (removedLocalStep baseToRemote) (fun c => key ∈ c) (fun _ => True) key
    (fun _ _ _ => trivial) ?_ (fun c k hk => removedLocalStep_mono baseToRemote c k hk)
    l [] hkl trivial
  intro c _
  unfold removedLocalStep
  rw [if_pos (by simpa using hupd)]
  exact mem_setAdd_self

/-- C3: every command that is removed on one side relative to base and
updated on the other side lands in the conflicts set of `computeMergeResult`
and in none of added/removed/updated, so the resulting conflict set is
non-empty; a deletion racing an edit is resolved neither as delete-wins nor
as edit-wins in either direction. -/
theorem computeMergeResult_removal_vs_update_conflict
    (localToRemote baseToLocal baseToRemote : CompareResult) (key : String)
    (h : (key ∈ baseToLocal.removed ∧ key ∈ baseToRemote.updated) ∨
      (key ∈ baseToRemote.removed ∧ key ∈ baseToLocal.updated)) :
    key ∈ (computeMergeResult localToRemote baseToLocal baseToRemote).conflicts ∧
      key ∉ (computeMergeResult localToRemote baseToLocal baseToRemote).added ∧
      key ∉ (computeMergeResult localToRemote baseToLocal baseToRemote).removed ∧
      key ∉ (computeMergeResult localToRemote baseToLocal baseToRemote).updated ∧
      (computeMergeResult localToRemote baseToLocal baseToRemote).conflicts ≠ [] := by
  set c1 := baseToLocal.removed.foldl (removedLocalStep baseToRemote) ([] : List String)
    with hc1
  set rc := baseToRemote.removed.foldl (removedRemoteStep baseToLocal)
    (([] : List String), c1) with hrc
  set c2 := baseToLocal.added.foldl (addedLocalStep baseToRemote localToRemote) rc.2 with hc2
  set ac := baseToRemote.added.foldl (addedRemoteStep baseToLocal localToRemote)
    (([] : List String), c2) with hac
  set c3 := baseToLocal.updated.foldl (updatedLocalStep baseToRemote localToRemote) ac.2
    with hc3
  set uc := baseToRemote.updated.foldl (updatedRemoteStep baseToLocal localToRemote)
    (([] : List String), c3) with huc
  have hres : computeMergeResult localToRemote baseToLocal baseToRemote =
      { added := ac.1, removed := rc.1, updated := uc.1, conflicts := uc.2 } := rfl
  rw [hres]
  have hA : key ∈ rc.2 ∧ key ∉ rc.1 := by
    rw [hrc]
    rcases h with ⟨h1, h2⟩ | ⟨h1, h2⟩
    · have hkc1 : key ∈ c1 := by
        rw [hc1]
        exact conflicts1_mem baseToRemote baseToLocal.removed h1 h2
      refine foldl_preserve _ (fun a => key ∈ a.2 ∧ key ∉ a.1)
        (fun a k hp => removedRemoteStep_preserve baseToLocal a k hp) _
        (([] : List String), c1) ?_
      exact ⟨hkc1, by simp⟩
    · refine foldl_once _ (fun a => key ∈ a.2 ∧ key ∉ a.1) (fun a => key ∉ a.1) key
        ?_ ?_ (fun a k hp => removedRemoteStep_preserve baseToLocal a k hp) _
        (([] : List String), c1) h1 (by simp)
      · intro a k ha
        unfold removedRemoteStep
        by_cases hcc : a.2.contains k = true
        · rw [if_pos hcc]; exact ha
        · rw [if_neg hcc]
          by_cases hu : baseToLocal.updated.contains k = true
          · rw [if_pos hu]; exact ha
          · rw [if_neg hu]
            have hkne : key ≠ k := by
              intro he; subst he; exact hu (by simpa using h2)
            exact not_mem_setAdd ha hkne
      · intro a ha
        unfold removedRemoteStep
        by_cases hcc : a.2.contains key = true
        · rw [if_pos hcc]
          exact ⟨by simpa using hcc, ha⟩
        · rw [if_neg hcc]
          rw [if_pos (by simpa using h2)]
          exact ⟨mem_setAdd_self, ha⟩
  have hB : key ∈ c2 := by
    rw [hc2]
    exact foldl_preserve _ (fun c => key ∈ c)
      (fun c k hk => addedLocalStep_mono baseToRemote localToRemote c k hk) _ _ hA.1
  have hC : key ∈ ac.2 ∧ key ∉ ac.1 := by
    rw [hac]
    refine foldl_preserve _ (fun a => key ∈ a.2 ∧ key ∉ a.1)
      (fun a k hp => addedRemoteStep_preserve baseToLocal localToRemote a k hp) _
      (([] : List String), c2) ?_
    exact ⟨hB, by simp⟩
  have hD : key ∈ c3 := by
    rw [hc3]
    exact foldl_preserve _ (fun c => key ∈ c)
      (fun c k hk => updatedLocalStep_mono baseToRemote localToRemote c k hk) _ _ hC.1
  have hE : key ∈ uc.2 ∧ key ∉ uc.1 := by
    rw [huc]
    refine foldl_preserve _ (fun a => key ∈ a.2 ∧ key ∉ a.1)
      (fun a k hp => updatedRemoteStep_preserve baseToLocal localToRemote a k hp) _
      (([] : List String), c3) ?_
    exact ⟨hD, by simp⟩
  exact ⟨hE.1, hC.2, hA.2, hE.2, List.ne_nil_of_mem hE.1⟩

theorem computeMergeResult_removal_vs_update_conflict_witness :
    ("D" ∈ (⟨[], ["D"], []⟩ : CompareResult).removed ∧
      "D" ∈ (⟨[], [], ["D"]⟩ : CompareResult).updated) ∧
    "D" ∈ (computeMergeResult ⟨[], [], []⟩ ⟨[], ["D"], []⟩ ⟨[], [], ["D"]⟩).conflicts ∧
    "D" ∉ (computeMergeResult ⟨[], [], []⟩ ⟨[], ["D"], []⟩ ⟨[], [], ["D"]⟩).removed ∧
    "D" ∉ (computeMergeResult ⟨[], [], []⟩ ⟨[], ["D"], []⟩ ⟨[], [], ["D"]⟩).updated := by
  have h := computeMergeResult_removal_vs_update_conflict ⟨[], [], []⟩ ⟨[], ["D"], []⟩
    ⟨[], [], ["D"]⟩ "D" (Or.inl ⟨by decide, by decide⟩)
  exact ⟨⟨by decide, by decide⟩, h.1, h.2.2.1, h.2.2.2.1⟩


/-! ## Claim C6: the update rewrite deletes in place and re-inserts -/

theorem editContent_ofNat_none (c : List Keybinding) (i : Nat) :
    editContent c (Int.ofNat i) none = eraseAt c i := by
  show (if (Int.ofNat i) < 0 then c else eraseAt c (Int.ofNat i).toNat) = eraseAt c i
  rw [if_neg (by simp)]
  simp

theorem editContent_ofNat_some (c : List Keybinding) (i : Nat) (kb : Keybinding) :
    editContent c (Int.ofNat i) (some kb) = insertAt c i kb := by
  show (if (Int.ofNat i) < 0 then c ++ [kb] else insertAt c (Int.ofNat i).toNat kb)
    = insertAt c i kb
  rw [if_neg (by simp)]
  simp

theorem eraseAt_append_of_length {α : Type} (l1 : List α) (y : α) (l2 : List α) :
    ∀ (n : Nat), l1.length = n → eraseAt (l1 ++ y :: l2) n = l1 ++ l2 := by
  induction l1 with
  | nil =>
    intro n h
    cases h
    rfl
  | cons a l1 ih =>
    intro n h
    cases h
    show a :: eraseAt (l1 ++ y :: l2) l1.length = a :: (l1 ++ l2)
    rw [ih l1.length rfl]

theorem insertAt_append_of_length {α : Type} (l1 : List α) (a : α) (l2 : List α) :
    ∀ (n : Nat), l1.length = n → insertAt (l1 ++ l2) n a = l1 ++ a :: l2 := by
  induction l1 with
  | nil =>
    intro n h
    cases h
    show insertAt l2 0 a = a :: l2
    cases l2 <;> rfl
  | cons x l1 ih =>
    intro n h
    cases h
    show x :: insertAt (l1 ++ l2) l1.length a = x :: (l1 ++ a :: l2)
    rw [ih l1.length rfl]

/-- The descending deletion loop over the indices `k - 1, …, 0` of a fixed
original list, applied to `l.take k ++ rest`, filters the prefix and leaves
the rest alone. -/
theorem deleteLoop_take {α : Type} (p : α → Bool) (l : List α) :
    ∀ (k : Nat), k ≤ l.length → ∀ (rest : List α),
      (List.range k).foldr (fun i acc => if (l[i]?.any p) then eraseAt acc i else acc)
          (l.take k ++ rest)
        = (l.take k).filter (fun a => !p a) ++ rest := by
  intro k
  induction k with
  | zero => intro _ rest; simp
  | succ k ih =>
    intro hk rest
    have hklt : k < l.length := hk
    obtain ⟨y, hy⟩ : ∃ y, l[k]? = some y := by
      cases h : l[k]? with
      | none => exact absurd (List.getElem?_eq_none_iff.mp h) (by omega)
      | some y => exact ⟨y, rfl⟩
    have htake : l.take (k + 1) = l.take k ++ [y] := by
      rw [List.take_succ, hy]
      rfl
    have hlen : (l.take k).length = k := by
      simp [List.length_take, Nat.min_eq_left (Nat.le_of_lt hklt)]
    simp only [List.range_succ, List.foldr_append, List.foldr_cons, List.foldr_nil]
    rw [htake, hy, Option.any_some]
    by_cases hp : p y = true
    · rw [if_pos hp]
      rw [List.append_assoc]
      rw [show ([y] ++ rest : List α) = y :: rest from rfl]
      rw [eraseAt_append_of_length (l.take k) y rest k hlen]
      rw [ih (Nat.le_of_lt hklt) rest]
      rw [List.filter_append]
      simp [hp]
    · rw [if_neg hp]
      rw [List.append_assoc]
      rw [show ([y] ++ rest : List α) = y :: rest from rfl]
      rw [ih (Nat.le_of_lt hklt) (y :: rest)]
      rw [List.filter_append]
      have hpf : p y = false := by simpa using hp
      simp [hpf]

/-- The full deletion loop of `removeKeybindings`/`updateKeybindings` equals
a filter on the parsed records. -/
theorem deleteLoop_eq_filter {α : Type} (p : α → Bool) (l : List α) :
    (List.range l.length).foldr (fun i acc => if (l[i]?.any p) then eraseAt acc i else acc) l
      = l.filter (fun a => !p a) := by
  have h := deleteLoop_take p l l.length (Nat.le_refl _) []
  rw [List.take_length, List.append_nil, List.append_nil] at h
  exact h

theorem insertLoop_spec {α : Type} (i : Nat) :
    ∀ (kbs c : List α), i ≤ c.length →
      kbs.foldr (fun kb acc => insertAt acc i kb) c = c.take i ++ (kbs ++ c.drop i) := by
  intro kbs
  induction kbs with
  | nil =>
    intro c _
    simp
  | cons k rest ih =>
    intro c hc
    have hlen : (c.take i).length = i := by
      simp [List.length_take, Nat.min_eq_left hc]
    rw [List.foldr_cons, ih c hc]
    rw [insertAt_append_of_length (c.take i) k (rest ++ c.drop i) i hlen]
    simp

theorem firstIdx?_lt_length {α : Type} (p : α → Bool) :
    ∀ (l : List α) (i : Nat), firstIdx? p l = some i → i < l.length := by
  intro l
  induction l with
  | nil => intro i h; cases h
  | cons x xs ih =>
    intro i h
    unfold firstIdx? at h
    by_cases hp : p x = true
    · rw [if_pos hp] at h
      cases h
      simp
    · rw [if_neg hp] at h
      cases hj : firstIdx? p xs with
      | none => rw [hj] at h; cases h
      | some j =>
        rw [hj] at h
        simp only [Option.map_some'] at h
        cases h
        have := ih j hj
        simp only [List.length_cons]
        omega

theorem firstIdx?_take_false {α : Type} (p : α → Bool) :
    ∀ (l : List α) (i : Nat), firstIdx? p l = some i → ∀ x ∈ l.take i, p x = false := by
  intro l
  induction l with
  | nil => intro i h; cases h
  | cons x xs ih =>
    intro i h
    unfold firstIdx? at h
    by_cases hp : p x = true
    · rw [if_pos hp] at h
      cases h
      simp
    · rw [if_neg hp] at h
      cases hj : firstIdx? p xs with
      | none => rw [hj] at h; cases h
      | some j =>
        rw [hj] at h
        simp only [Option.map_some'] at h
        cases h
        intro z hz
        rw [List.take_succ_cons] at hz
        rcases List.mem_cons.mp hz with rfl | hz'
        · simpa using hp
        · exact ih j hj z hz'

/-- C6: for a command present in the content (the first record whose command
is the command name or its `-`-negated form sits at index `i`),
`updateKeybindings` deletes — scanning indices in reverse order — every
record whose command is the command or its negated form and inserts the
remote's records for the command, in their remote order, at the index where
the first deleted record was located: the result is the records before index
`i`, then the remote records, then the remaining records with every record of
the command removed. -/
theorem updateKeybindings_spec (content : List Keybinding) (command : String)
    (keybindings : List Keybinding) (i : Nat)
    (h : firstIdx? (keybindingMatches command) content = some i) :
    updateKeybindings content command keybindings =
      content.take i ++ (keybindings ++
        (content.drop i).filter
          (fun keybinding => !(keybindingMatches command keybinding))) := by
  have hi : i < content.length := firstIdx?_lt_length _ content i h
  have hfun2 : (fun (index : Nat) (c : List Keybinding) =>
        if (content[index]?.any (keybindingMatches command)) then
          editContent c (Int.ofNat index) none
        else c)
      = (fun index acc =>
        if (content[index]?.any (keybindingMatches command)) then eraseAt acc index
        else acc) := by
    funext index c
    by_cases hc : content[index]?.any (keybindingMatches command) = true
    · rw [if_pos hc, if_pos hc, editContent_ofNat_none]
    · rw [if_neg hc, if_neg hc]
  have hfun : (fun (keybinding : Keybinding) (c : List Keybinding) =>
        editContent c (Int.ofNat i) (some keybinding))
      = (fun keybinding acc => insertAt acc i keybinding) := by
    funext kb c
    exact editContent_ofNat_some c i kb
  have hsplit : content.filter (fun keybinding => !(keybindingMatches command keybinding))
      = content.take i ++
        (content.drop i).filter
          (fun keybinding => !(keybindingMatches command keybinding)) := by
    conv_lhs => rw [← List.take_append_drop i content]
    rw [List.filter_append]
    congr 1
    rw [List.filter_eq_self]
    intro a ha
    simp [firstIdx?_take_false (keybindingMatches command) content i h a ha]
  have hlen : (content.take i).length = i := by
    simp [List.length_take, Nat.min_eq_left (Nat.le_of_lt hi)]
  have hle : i ≤ (content.filter
      (fun keybinding => !(keybindingMatches command keybinding))).length := by
    rw [hsplit, List.length_append, hlen]
    omega
  simp only [updateKeybindings, h]
  rw [hfun2, deleteLoop_eq_filter, hfun]
  rw [insertLoop_spec i keybindings
    (content.filter (fun keybinding => !(keybindingMatches command keybinding))) hle]
  rw [hsplit]
  rw [List.take_left' hlen, List.drop_left' hlen]

theorem updateKeybindings_spec_witness :
    (firstIdx? (keybindingMatches "A")
        [(⟨"k9", "Z", none, none⟩ : Keybinding), ⟨"k1", "A", none, some "1"⟩,
          ⟨"k9", "Z2", none, none⟩, ⟨"k2", "-A", none, none⟩] = some 1) ∧
    updateKeybindings
        [(⟨"k9", "Z", none, none⟩ : Keybinding), ⟨"k1", "A", none, some "1"⟩,
          ⟨"k9", "Z2", none, none⟩, ⟨"k2", "-A", none, none⟩] "A"
        [⟨"k1", "A", none, some "2"⟩] =
      [(⟨"k9", "Z", none, none⟩ : Keybinding), ⟨"k1", "A", none, some "2"⟩,
        ⟨"k9", "Z2", none, none⟩] ∧
    updateKeybindings
        [(⟨"k9", "Z", none, none⟩ : Keybinding), ⟨"k1", "A", none, some "1"⟩,
          ⟨"k9", "Z2", none, none⟩, ⟨"k2", "-A", none, none⟩] "A"
        [⟨"k1", "A", none, some "2"⟩] =
      ([(⟨"k9", "Z", none, none⟩ : Keybinding), ⟨"k1", "A", none, some "1"⟩,
          ⟨"k9", "Z2", none, none⟩, ⟨"k2", "-A", none, none⟩].take 1 ++
        ([⟨"k1", "A", none, some "2"⟩] ++
          ([(⟨"k9", "Z", none, none⟩ : Keybinding), ⟨"k1", "A", none, some "1"⟩,
            ⟨"k9", "Z2", none, none⟩, ⟨"k2", "-A", none, none⟩].drop 1).filter
            (fun keybinding => !(keybindingMatches "A" keybinding)))) := by
  refine ⟨by decide, by decide, ?_⟩
  exact updateKeybindings_spec
    [⟨"k9", "Z", none, none⟩, ⟨"k1", "A", none, some "1"⟩, ⟨"k9", "Z2", none, none⟩,
      ⟨"k2", "-A", none, none⟩] "A" [⟨"k1", "A", none, some "2"⟩] 1 (by decide)


/-! ## Claim C5: conflict flag and conflict block -/

/-- C5: `merge` reports `hasConflicts = true` exactly when the command-level
conflict set at the end of output assembly is non-empty, and in that case
`mergeContent` is the two-way conflict block wrapping the edited local
records and the raw remote records; when `hasConflicts` is false the output
is never a conflict block. -/
theorem merge_conflict_markers (localContent remoteContent : List Keybinding)
    (baseContent : Option (List Keybinding)) (normalizedKeys : String → String) :
    ((computeMergeResultByKeybinding localContent remoteContent baseContent
        normalizedKeys).hasLocalForwarded = true →
      (computeMergeResultByKeybinding localContent remoteContent baseContent
        normalizedKeys).hasRemoteForwarded = true →
      (((merge localContent remoteContent baseContent normalizedKeys).hasConflicts = true ↔
          (outputAssembly localContent remoteContent baseContent normalizedKeys).2 ≠ []) ∧
        ((outputAssembly localContent remoteContent baseContent normalizedKeys).2 ≠ [] →
          merge localContent remoteContent baseContent normalizedKeys =
            { mergeContent := MergeContent.conflict
                (outputAssembly localContent remoteContent baseContent normalizedKeys).1
                remoteContent,
              hasChanges := true, hasConflicts := true }))) ∧
    ((merge localContent remoteContent baseContent normalizedKeys).hasConflicts = false →
      ∀ p q, (merge localContent remoteContent baseContent normalizedKeys).mergeContent ≠
        MergeContent.conflict p q) := by
  constructor
  · intro h1 h2
    have hm : merge localContent remoteContent baseContent normalizedKeys =
        { mergeContent :=
            if !(outputAssembly localContent remoteContent baseContent
                normalizedKeys).2.isEmpty then
              MergeContent.conflict
                (outputAssembly localContent remoteContent baseContent normalizedKeys).1
                remoteContent
            else MergeContent.text
              (outputAssembly localContent remoteContent baseContent normalizedKeys).1,
          hasChanges := true,
          hasConflicts :=
            !(outputAssembly localContent remoteContent baseContent
              normalizedKeys).2.isEmpty } := by
      simp [merge, h1, h2]
    constructor
    · rw [hm]
      simp [List.isEmpty_iff]
    · intro hne
      have hemp : (outputAssembly localContent remoteContent baseContent
          normalizedKeys).2.isEmpty = false := by
        simpa [List.isEmpty_iff] using hne
      rw [hm, hemp]
      rfl
  · intro hfalse p q
    cases hL : (computeMergeResultByKeybinding localContent remoteContent baseContent
        normalizedKeys).hasLocalForwarded with
    | false =>
      cases hR : (computeMergeResultByKeybinding localContent remoteContent baseContent
          normalizedKeys).hasRemoteForwarded with
      | false => simp [merge, hL, hR]
      | true => simp [merge, hL, hR]
    | true =>
      cases hR : (computeMergeResultByKeybinding localContent remoteContent baseContent
          normalizedKeys).hasRemoteForwarded with
      | false => simp [merge, hL, hR]
      | true =>
        have hemp : (outputAssembly localContent remoteContent baseContent
            normalizedKeys).2.isEmpty = true := by
          simp only [merge, hL, hR] at hfalse
          simpa using hfalse
        simp [merge, hL, hR, hemp]

theorem merge_conflict_markers_witness :
    ((merge [⟨"k1", "A", none, some "1"⟩] [⟨"k1", "A", none, some "2"⟩]
        (some [⟨"k1", "A", none, some "0"⟩]) (fun k => k)).hasConflicts = true ↔
      (outputAssembly [⟨"k1", "A", none, some "1"⟩] [⟨"k1", "A", none, some "2"⟩]
        (some [⟨"k1", "A", none, some "0"⟩]) (fun k => k)).2 ≠ []) ∧
    merge [⟨"k1", "A", none, some "1"⟩] [⟨"k1", "A", none, some "2"⟩]
        (some [⟨"k1", "A", none, some "0"⟩]) (fun k => k) =
      { mergeContent := MergeContent.conflict [⟨"k1", "A", none, some "1"⟩]
          [⟨"k1", "A", none, some "2"⟩],
        hasChanges := true, hasConflicts := true } := by
  have h := (merge_conflict_markers [⟨"k1", "A", none, some "1"⟩]
    [⟨"k1", "A", none, some "2"⟩] (some [⟨"k1", "A", none, some "0"⟩]) (fun k => k)).1
    (by decide) (by decide)
  exact ⟨h.1, (h.2 (by decide)).trans (by decide)⟩

/-! ## Claim C4: the Level-2 escalation guard and the binding-level conflict
set it consults -/

/-- C4 counterexample: at this concrete input both levels diverge, command
`B` is an added command reaching the guard of the added-commands loop, and
the binding-level conflict set the guard consults is non-empty (`A`'s
records on canonical key `k1` conflict); the guard escalates `B` — `B` is in
the assembly's final conflict set although the command-level merge result
did not put it there — so the guard is not a no-op. -/
theorem level2_guard_nonempty_counterexample :
    (computeMergeResultByKeybinding [⟨"k1", "A", none, some "1"⟩]
        [⟨"k1", "A", none, some "3"⟩, ⟨"k1", "B", none, none⟩]
        (some [⟨"k1", "A", none, some "0"⟩]) (fun k => k)).conflicts ≠ [] ∧
    "B" ∈ (commandLevelMerge [⟨"k1", "A", none, some "1"⟩]
        [⟨"k1", "A", none, some "3"⟩, ⟨"k1", "B", none, none⟩]
        (some [⟨"k1", "A", none, some "0"⟩]) (fun k => k)).added ∧
    "B" ∉ (commandLevelMerge [⟨"k1", "A", none, some "1"⟩]
        [⟨"k1", "A", none, some "3"⟩, ⟨"k1", "B", none, none⟩]
        (some [⟨"k1", "A", none, some "0"⟩]) (fun k => k)).conflicts ∧
    "B" ∈ (outputAssembly [⟨"k1", "A", none, some "1"⟩]
        [⟨"k1", "A", none, some "3"⟩, ⟨"k1", "B", none, none⟩]
        (some [⟨"k1", "A", none, some "0"⟩]) (fun k => k)).2 := by
  refine ⟨by decide, by decide, by decide, by decide⟩

/-- C4 amended: the binding-level conflict set consulted by the Level-2 guard
can be non-empty when the guard is evaluated (Level 2 runs exactly when both
levels diverged, and the binding-level fold may itself have produced
conflicts), and the guard then escalates an added or updated command whose
non-negated remote records use a conflicting canonical key, suppressing its
application: here `B`'s record is not applied and `B` is escalated to the
final conflict set, changing the output. -/
theorem level2_guard_escalates :
    (computeMergeResultByKeybinding [⟨"k1", "A", none, some "1"⟩]
        [⟨"k1", "A", none, some "3"⟩, ⟨"k1", "B", none, none⟩]
        (some [⟨"k1", "A", none, some "0"⟩]) (fun k => k)).conflicts = ["k1"] ∧
    (outputAssembly [⟨"k1", "A", none, some "1"⟩]
        [⟨"k1", "A", none, some "3"⟩, ⟨"k1", "B", none, none⟩]
        (some [⟨"k1", "A", none, some "0"⟩]) (fun k => k)) =
      ([⟨"k1", "A", none, some "1"⟩], ["A", "B"]) ∧
    merge [⟨"k1", "A", none, some "1"⟩]
        [⟨"k1", "A", none, some "3"⟩, ⟨"k1", "B", none, none⟩]
        (some [⟨"k1", "A", none, some "0"⟩]) (fun k => k) =
      { mergeContent := MergeContent.conflict [⟨"k1", "A", none, some "1"⟩]
          [⟨"k1", "A", none, some "3"⟩, ⟨"k1", "B", none, none⟩],
        hasChanges := true, hasConflicts := true } := by
  refine ⟨by decide, by decide, by decide⟩

end KeybindingsMerge
